import Mathlib

/-!
Verification of the `python_guide` educational repository.

Each Python function relevant to the claims is shallowly embedded as a Lean
definition, translated from the source (`src/python_guide/*.py`, `src/main.py`).
Python integers are modelled as `Int` (arbitrary precision, as in Python);
monetary amounts (Python floats used only with exact decimal literals in the
demo) are modelled as `Rat`; fallible methods return `Except String`.
-/

/-! ## `is_prime` (src/python_guide/functions.py lines 153-173; the identical
  `MathUtils.is_prime` in src/python_guide/object_oriented.py lines 332-353) -/

/-- The trial-division loop of `is_prime`:
`i = 5; while i * i <= n: if n % i == 0 or n % (i + 2) == 0: return False; i += 6`.
Returns `true` when the loop falls through. -/
def isPrimeLoop (n : Int) (i : Int) : Bool :=
  if _h : i * i ≤ n then
    if n % i = 0 ∨ n % (i + 2) = 0 then false
    else isPrimeLoop n (i + 6)
  else true
termination_by (n + 1 - i).toNat
decreasing_by
  have hii : i ≤ i * i := by nlinarith [mul_self_nonneg (i - 1)]
  have hin : i ≤ n := le_trans hii _h
  omega

/-- Embedding of `is_prime` from functions.py (= `MathUtils.is_prime` in
object_oriented.py):
```
if n <= 1: return False
if n <= 3: return True
if n % 2 == 0 or n % 3 == 0: return False
i = 5
while i * i <= n: ...
return True
``` -/
def is_prime (n : Int) : Bool :=
  if n ≤ 1 then false
  else if n ≤ 3 then true
  else if n % 2 = 0 ∨ n % 3 = 0 then false
  else isPrimeLoop n 5

/-- Primality as the claim states it: `n ≥ 2` and no divisor strictly between
`1` and `n`. -/
def IsPrimeSpec (n : Int) : Prop :=
  2 ≤ n ∧ ∀ d : Int, 1 < d → d < n → ¬ d ∣ n

/-- The loop, entered at an `i ≡ 5 (mod 6)` with `5 ≤ i`, on an `n` that is not
even, returns `true` iff no `d ≥ i` with `d * d ≤ n` and `d ≡ 1` or
`5 (mod 6)` divides `n`. -/
theorem isPrimeLoop_eq_true_iff (n : Int) (hn2 : ¬ (2 ∣ n)) :
    ∀ (k : Nat) (i : Int), (n + 1 - i).toNat = k → 5 ≤ i → i % 6 = 5 →
    (isPrimeLoop n i = true ↔
      ∀ d : Int, i ≤ d → d * d ≤ n → (d % 6 = 5 ∨ d % 6 = 1) → ¬ d ∣ n) := by
  intro k
  induction k using Nat.strong_induction_on with
  | _ k ih =>
    intro i hk h5 hmod
    rw [isPrimeLoop]
    by_cases hguard : i * i ≤ n
    · rw [dif_pos hguard]
      by_cases hd1 : n % i = 0
      · rw [if_pos (Or.inl hd1)]
        constructor
        · intro hfalse; exact absurd hfalse (by simp)
        · intro hall
          exact absurd (Int.dvd_of_emod_eq_zero hd1)
            (hall i le_rfl hguard (Or.inl hmod))
      · by_cases hd2 : n % (i + 2) = 0
        · rw [if_pos (Or.inr hd2)]
          constructor
          · intro hfalse; exact absurd hfalse (by simp)
          · intro hall
            by_cases hbig : (i + 2) * (i + 2) ≤ n
            · exact absurd (Int.dvd_of_emod_eq_zero hd2)
                (hall (i + 2) (by omega) hbig (Or.inr (by omega)))
            · -- i*i ≤ n < (i+2)², (i+2) ∣ n, ¬ i ∣ n: the cofactor c = n/(i+2)
              -- is i-1, i or i+1; i is excluded by ¬ i ∣ n, the others are even,
              -- contradicting that n is odd.
              exfalso
              obtain ⟨c, hc⟩ := Int.dvd_of_emod_eq_zero hd2
              push_neg at hbig
              have hiv : (0 : Int) ≤ i + 2 := by omega
              have hcu : c < i + 2 := by
                by_contra hcon
                push_neg at hcon
                have := mul_le_mul_of_nonneg_left hcon hiv
                linarith
              have hcl : i - 1 ≤ c := by
                by_contra hcon
                push_neg at hcon
                have hcon2 : c ≤ i - 2 := by omega
                have := mul_le_mul_of_nonneg_left hcon2 hiv
                nlinarith
              have hcase : c = i - 1 ∨ c = i ∨ c = i + 1 := by omega
              rcases hcase with h | h | h
              · obtain ⟨j, hj⟩ : ∃ j, c = 2 * j := ⟨c / 2, by omega⟩
                exact hn2 ⟨(i + 2) * j, by rw [hc, hj]; ring⟩
              · exact hd1 (Int.emod_eq_zero_of_dvd ⟨i + 2, by rw [hc, h]; ring⟩)
              · obtain ⟨j, hj⟩ : ∃ j, c = 2 * j := ⟨c / 2, by omega⟩
                exact hn2 ⟨(i + 2) * j, by rw [hc, hj]; ring⟩
        · rw [if_neg (not_or.mpr ⟨hd1, hd2⟩)]
          have hrec := ih (n + 1 - (i + 6)).toNat
            (by
              have hii : i ≤ i * i := by nlinarith [mul_self_nonneg (i - 1)]
              have hin : i ≤ n := le_trans hii hguard
              omega)
            (i + 6) rfl (by omega) (by omega)
          rw [hrec]
          constructor
          · intro hall d hdi hdd hdm hddvd
            rcases Classical.em (i + 6 ≤ d) with hbig | hsmall
            · exact hall d hbig hdd hdm hddvd
            · push_neg at hsmall
              have : d = i ∨ d = i + 2 := by rcases hdm with h | h <;> omega
              rcases this with rfl | rfl
              · exact hd1 (Int.emod_eq_zero_of_dvd hddvd)
              · exact hd2 (Int.emod_eq_zero_of_dvd hddvd)
          · intro hall d hdi hdd hdm hddvd
            exact hall d (by omega) hdd hdm hddvd
    · rw [dif_neg hguard]
      constructor
      · intro _ d hdi hdd _
        have hsq : i * i ≤ d * d :=
          mul_le_mul hdi hdi (by omega) (by omega)
        exact absurd (le_trans hsq hdd) hguard
      · intro _; rfl

/-- C1: for every integer `n`, `is_prime n` (functions.py / MathUtils.is_prime)
returns `true` iff `n` is prime: `n ≥ 2` with no divisor `d`, `1 < d < n`;
in particular it returns `false` for every `n ≤ 1`. -/
theorem is_prime_correct (n : Int) : is_prime n = true ↔ IsPrimeSpec n := by
  unfold is_prime IsPrimeSpec
  by_cases h1 : n ≤ 1
  · rw [if_pos h1]
    constructor
    · intro hfalse; exact absurd hfalse (by simp)
    · rintro ⟨h2, -⟩; exfalso; omega
  · rw [if_neg h1]
    by_cases h3 : n ≤ 3
    · rw [if_pos h3]
      constructor
      · intro _
        refine ⟨by omega, ?_⟩
        intro d hd1 hdn hdvd
        have hn : n = 2 ∨ n = 3 := by omega
        rcases hn with rfl | rfl
        · omega
        · have hd2 : d = 2 := by omega
          subst hd2
          omega
      · intro _; rfl
    · rw [if_neg h3]
      by_cases h23 : n % 2 = 0 ∨ n % 3 = 0
      · rw [if_pos h23]
        constructor
        · intro hfalse; exact absurd hfalse (by simp)
        · rintro ⟨hge2, hall⟩
          rcases h23 with h2 | h2
          · exact absurd (Int.dvd_of_emod_eq_zero h2)
              (hall 2 (by omega) (by omega))
          · have h3n : (3 : Int) ∣ n := Int.dvd_of_emod_eq_zero h2
            have hlt : 3 < n := by obtain ⟨c, hc⟩ := h3n; omega
            exact absurd h3n (hall 3 (by omega) hlt)
      · rw [if_neg h23]
        push_neg at h23
        have hn2 : ¬ (2 : Int) ∣ n := fun hd => h23.1 (Int.emod_eq_zero_of_dvd hd)
        have hn3 : ¬ (3 : Int) ∣ n := fun hd => h23.2 (Int.emod_eq_zero_of_dvd hd)
        rw [isPrimeLoop_eq_true_iff n hn2 (n + 1 - 5).toNat 5 rfl (by omega) (by omega)]
        constructor
        · intro hall
          refine ⟨by omega, ?_⟩
          intro d hd1 hdn hdvd
          exfalso
          have hmn : ((n.toNat : Int)) = n := Int.toNat_of_nonneg (by omega)
          have hdm : d.toNat ∣ n.toNat := by
            rw [← Int.natCast_dvd_natCast, hmn, Int.toNat_of_nonneg (by omega : (0:Int) ≤ d)]
            exact hdvd
          have hnp : ¬ (n.toNat).Prime := by
            intro hp
            rcases hp.eq_one_or_self_of_dvd d.toNat hdm with h | h <;> omega
          have hne1 : n.toNat ≠ 1 := by omega
          have hp : (n.toNat.minFac).Prime := Nat.minFac_prime hne1
          have hpd : n.toNat.minFac ∣ n.toNat := Nat.minFac_dvd _
          have hpsq : n.toNat.minFac ^ 2 ≤ n.toNat :=
            Nat.minFac_sq_le_self (by omega) hnp
          have hpdn : ((n.toNat.minFac : Int)) ∣ n := by
            rw [← hmn]; exact Int.natCast_dvd_natCast.mpr hpd
          have hp2 : ¬ 2 ∣ n.toNat.minFac := by
            intro h2p
            rcases hp.eq_one_or_self_of_dvd 2 h2p with h | h
            · omega
            · exact hn2 (by rw [← hmn]; exact_mod_cast Int.natCast_dvd_natCast.mpr (h ▸ hpd))
          have hp3 : ¬ 3 ∣ n.toNat.minFac := by
            intro h3p
            rcases hp.eq_one_or_self_of_dvd 3 h3p with h | h
            · omega
            · exact hn3 (by rw [← hmn]; exact_mod_cast Int.natCast_dvd_natCast.mpr (h ▸ hpd))
          have hp5 : 5 ≤ n.toNat.minFac ∧
              (n.toNat.minFac % 6 = 5 ∨ n.toNat.minFac % 6 = 1) := by
            have := hp.two_le
            omega
          have hppi : ((n.toNat.minFac : Int)) * ((n.toNat.minFac : Int)) ≤ n := by
            rw [← hmn]
            have : n.toNat.minFac * n.toNat.minFac ≤ n.toNat := by
              have := hpsq; nlinarith
            exact_mod_cast this
          exact hall (n.toNat.minFac : Int) (by exact_mod_cast hp5.1) hppi
            (by rcases hp5.2 with h | h
                · exact Or.inl (by omega)
                · exact Or.inr (by omega)) hpdn
        · rintro ⟨-, hall⟩ d hd5 hdd hdm
          have h2d : 2 * d ≤ d * d := by
            nlinarith [mul_nonneg (by omega : (0:Int) ≤ d - 2) (by omega : (0:Int) ≤ d)]
          exact hall d (by omega) (by linarith)

/-! ## `factorial` (src/python_guide/functions.py lines 194-210) -/

/-- Embedding of the exported `factorial`:
```
if n < 0: raise ValueError("Factorial is not defined for negative numbers")
if n == 0 or n == 1: return 1
return n * factorial(n - 1)
```
An exception raised by the recursive call would propagate, hence the match. -/
def factorial (n : Int) : Except String Int :=
  if n < 0 then .error "Factorial is not defined for negative numbers"
  else if n = 0 ∨ n = 1 then .ok 1
  else
    match factorial (n - 1) with
    | .ok r => .ok (n * r)
    | .error e => .error e
termination_by n.toNat
decreasing_by omega

theorem factorial_ok : ∀ (k : Nat) (n : Int), n.toNat = k → 0 ≤ n →
    factorial n = .ok ((n.toNat).factorial : Int) := by
  intro k
  induction k using Nat.strong_induction_on with
  | _ k ih =>
    intro n hk h0
    rw [factorial, if_neg (by omega)]
    by_cases h01 : n = 0 ∨ n = 1
    · rw [if_pos h01]
      rcases h01 with rfl | rfl <;> simp [Nat.factorial]
    · rw [if_neg h01]
      rw [ih (n - 1).toNat (by omega) (n - 1) rfl (by omega)]
      have hsucc : n.toNat = (n - 1).toNat + 1 := by omega
      have hcast : (((n - 1).toNat : Int)) = n - 1 := by omega
      rw [hsucc, Nat.factorial_succ]
      push_cast
      rw [hcast]
      ring_nf

/-- C8: the exported `factorial` returns `n!` for every `n ≥ 0` (with
`0! = 1! = 1`), raises `ValueError` iff `n < 0`, and terminates on every
non-negative input (its Lean embedding is accepted as total on a strictly
decreasing measure). -/
theorem factorial_correct (n : Int) :
    (n < 0 ↔ factorial n = .error "Factorial is not defined for negative numbers") ∧
    (0 ≤ n → factorial n = .ok ((n.toNat).factorial : Int)) := by
  constructor
  · constructor
    · intro hneg; rw [factorial, if_pos hneg]
    · intro herr
      by_contra hpos
      rw [factorial_ok n.toNat n rfl (by omega)] at herr
      exact Except.noConfusion herr
  · exact factorial_ok n.toNat n rfl

/-- Witness for C8 at the demo input `n = 5`: `factorial(5) = 120`. -/
theorem factorial_correct_witness : factorial 5 = .ok 120 := by
  have h := (factorial_correct 5).2 (by norm_num)
  rw [h]
  norm_num [Int.toNat_ofNat, Nat.factorial]

/-! ## `calculate_average` (functions.py lines 180-191) and
  `calculate_statistics` (functions.py lines 114-125).
  Python floats appear only through exact arithmetic on the demo's numbers;
  the numbers are modelled as `Rat`. -/

/-- Left fold of binary `min` over a nonempty list, the semantics of Python's
built-in `min(numbers)` on a nonempty list. -/
def pyMin : Rat → List Rat → Rat
  | x, [] => x
  | x, y :: ys => pyMin (min x y) ys

/-- Left fold of binary `max`, the semantics of Python's `max(numbers)`. -/
def pyMax : Rat → List Rat → Rat
  | x, [] => x
  | x, y :: ys => pyMax (max x y) ys

/-- Embedding of `calculate_average`:
```
if not numbers: return 0
return sum(numbers) / len(numbers)
``` -/
def calculate_average (numbers : List Rat) : Rat :=
  if numbers = [] then 0
  else numbers.sum / (numbers.length : Rat)

/-- Embedding of `calculate_statistics`:
```
if not numbers: return 0, 0, 0
return min(numbers), max(numbers), sum(numbers) / len(numbers)
``` -/
def calculate_statistics (numbers : List Rat) : Rat × Rat × Rat :=
  match numbers with
  | [] => (0, 0, 0)
  | x :: xs => (pyMin x xs, pyMax x xs, (x :: xs).sum / ((x :: xs).length : Rat))

theorem pyMin_mem (xs : List Rat) : ∀ x : Rat, pyMin x xs ∈ x :: xs := by
  induction xs with
  | nil => intro x; simp [pyMin]
  | cons y ys ih =>
    intro x
    rw [pyMin]
    rcases min_choice x y with h | h
    · rcases List.mem_cons.mp (ih (min x y)) with hm | hm
      · rw [hm, h]; exact List.mem_cons_self _ _
      · exact List.mem_cons_of_mem _ (List.mem_cons_of_mem _ hm)
    · rcases List.mem_cons.mp (ih (min x y)) with hm | hm
      · rw [hm, h]; exact List.mem_cons_of_mem _ (List.mem_cons_self _ _)
      · exact List.mem_cons_of_mem _ (List.mem_cons_of_mem _ hm)

theorem pyMin_le (xs : List Rat) : ∀ x : Rat, ∀ z ∈ x :: xs, pyMin x xs ≤ z := by
  induction xs with
  | nil => intro x z hz; rw [List.mem_singleton] at hz; subst hz; exact le_rfl
  | cons y ys ih =>
    intro x z hz
    rw [pyMin]
    have hself : pyMin (min x y) ys ≤ min x y :=
      ih (min x y) (min x y) (List.mem_cons_self _ _)
    rcases List.mem_cons.mp hz with h | hz2
    · subst h; exact le_trans hself (min_le_left _ _)
    · rcases List.mem_cons.mp hz2 with h | hz3
      · subst h; exact le_trans hself (min_le_right _ _)
      · exact ih (min x y) z (List.mem_cons_of_mem _ hz3)

theorem pyMax_mem (xs : List Rat) : ∀ x : Rat, pyMax x xs ∈ x :: xs := by
  induction xs with
  | nil => intro x; simp [pyMax]
  | cons y ys ih =>
    intro x
    rw [pyMax]
    rcases max_choice x y with h | h
    · rcases List.mem_cons.mp (ih (max x y)) with hm | hm
      · rw [hm, h]; exact List.mem_cons_self _ _
      · exact List.mem_cons_of_mem _ (List.mem_cons_of_mem _ hm)
    · rcases List.mem_cons.mp (ih (max x y)) with hm | hm
      · rw [hm, h]; exact List.mem_cons_of_mem _ (List.mem_cons_self _ _)
      · exact List.mem_cons_of_mem _ (List.mem_cons_of_mem _ hm)

theorem pyMax_ge (xs : List Rat) : ∀ x : Rat, ∀ z ∈ x :: xs, z ≤ pyMax x xs := by
  induction xs with
  | nil => intro x z hz; rw [List.mem_singleton] at hz; subst hz; exact le_rfl
  | cons y ys ih =>
    intro x z hz
    rw [pyMax]
    have hself : max x y ≤ pyMax (max x y) ys :=
      ih (max x y) (max x y) (List.mem_cons_self _ _)
    rcases List.mem_cons.mp hz with h | hz2
    · subst h; exact le_trans (le_max_left _ _) hself
    · rcases List.mem_cons.mp hz2 with h | hz3
      · subst h; exact le_trans (le_max_right _ _) hself
      · exact ih (max x y) z (List.mem_cons_of_mem _ hz3)

/-- C9: `calculate_average` returns 0 on the empty list and `sum/len` on any
nonempty list, never raising; `calculate_statistics` returns `(0, 0, 0)` on the
empty list and `(minimum, maximum, average)` on any nonempty list: the first
component is a member of the list and a lower bound of it, the second a member
and an upper bound, and the third equals `calculate_average`. -/
theorem calculate_statistics_correct :
    (calculate_average [] = 0 ∧ calculate_statistics [] = (0, 0, 0)) ∧
    (∀ numbers : List Rat, numbers ≠ [] →
      calculate_average numbers = numbers.sum / (numbers.length : Rat) ∧
      (calculate_statistics numbers).1 ∈ numbers ∧
      (∀ z ∈ numbers, (calculate_statistics numbers).1 ≤ z) ∧
      (calculate_statistics numbers).2.1 ∈ numbers ∧
      (∀ z ∈ numbers, z ≤ (calculate_statistics numbers).2.1) ∧
      (calculate_statistics numbers).2.2 = calculate_average numbers) := by
  refine ⟨⟨rfl, rfl⟩, ?_⟩
  intro numbers hne
  cases numbers with
  | nil => exact absurd rfl hne
  | cons x xs =>
    refine ⟨by rw [calculate_average, if_neg hne], ?_, ?_, ?_, ?_, ?_⟩
    · simpa [calculate_statistics] using pyMin_mem xs x
    · simpa [calculate_statistics] using pyMin_le xs x
    · simpa [calculate_statistics] using pyMax_mem xs x
    · simpa [calculate_statistics] using pyMax_ge xs x
    · rw [calculate_average, if_neg hne]
      simp [calculate_statistics]

/-- Witness for C9 on the demo data `[5, 2, 9, 1, 7]`:
the statistics are `(1, 9, 24/5)` and the average is `24/5`. -/
theorem calculate_statistics_correct_witness :
    calculate_statistics [5, 2, 9, 1, 7] = (1, 9, 24 / 5) ∧
    (calculate_statistics ([5, 2, 9, 1, 7] : List Rat)).2.2 =
      calculate_average [5, 2, 9, 1, 7] := by
  refine ⟨?_, (calculate_statistics_correct.2 [5, 2, 9, 1, 7] (by simp)).2.2.2.2.2⟩
  norm_num [calculate_statistics, pyMin, pyMax, min_def, max_def]

/-! ## `BankAccount` (src/python_guide/object_oriented.py lines 114-140).
  The `_balance` float is modelled as `Rat`; `deposit`/`withdraw` mutate the
  account or raise `ValueError`, modelled as `Except String BankAccount`.
  In the source the `raise` statements execute before any mutation, so a
  raising call is embedded as returning the error with the account unchanged. -/

structure BankAccount where
  owner : String
  balance : Rat

/-- Embedding of `BankAccount.deposit`:
```
if amount <= 0: raise ValueError("El monto debe ser positivo")
self._balance += amount
``` -/
def BankAccount.deposit (self : BankAccount) (amount : Rat) : Except String BankAccount :=
  if amount ≤ 0 then .error "El monto debe ser positivo"
  else .ok { self with balance := self.balance + amount }

/-- Embedding of `BankAccount.withdraw`:
```
if amount <= 0: raise ValueError("El monto debe ser positivo")
if amount > self._balance: raise ValueError("Fondos insuficientes")
self._balance -= amount
``` -/
def BankAccount.withdraw (self : BankAccount) (amount : Rat) : Except String BankAccount :=
  if amount ≤ 0 then .error "El monto debe ser positivo"
  else if self.balance < amount then .error "Fondos insuficientes"
  else .ok { self with balance := self.balance - amount }

/-- A call in a sequence of account operations. -/
inductive AccountOp where
  | deposit (amount : Rat)
  | withdraw (amount : Rat)

/-- One call: a raising call leaves the account exactly as it was
(the method raises before mutating anything). -/
def BankAccount.step (self : BankAccount) (op : AccountOp) : BankAccount :=
  match op with
  | .deposit a =>
    match self.deposit a with
    | .ok s => s
    | .error _ => self
  | .withdraw a =>
    match self.withdraw a with
    | .ok s => s
    | .error _ => self

/-- A sequence of deposit/withdraw calls, raising calls included. -/
def BankAccount.runOps (self : BankAccount) (ops : List AccountOp) : BankAccount :=
  ops.foldl BankAccount.step self

theorem BankAccount.step_nonneg (a : BankAccount) (op : AccountOp)
    (h : 0 ≤ a.balance) : 0 ≤ (a.step op).balance := by
  cases op with
  | deposit amt =>
    rw [BankAccount.step]
    unfold BankAccount.deposit
    by_cases hamt : amt ≤ 0
    · rw [if_pos hamt]; exact h
    · rw [if_neg hamt]; push_neg at hamt; simp only; linarith
  | withdraw amt =>
    rw [BankAccount.step]
    unfold BankAccount.withdraw
    by_cases hamt : amt ≤ 0
    · rw [if_pos hamt]; exact h
    · rw [if_neg hamt]
      by_cases hbal : a.balance < amt
      · rw [if_pos hbal]; exact h
      · rw [if_neg hbal]; push_neg at hbal; simp only; linarith

/-- C3: `deposit` raises iff `amount ≤ 0` and otherwise sets the balance to
`b + amount`; `withdraw` raises iff `amount ≤ 0` or `amount > b` and otherwise
sets the balance to `b - amount`; a raising call leaves the balance unchanged;
hence an account with a non-negative starting balance keeps a non-negative
balance under every sequence of deposit and withdraw calls. -/
theorem bankAccount_correct :
    (∀ (a : BankAccount) (amount : Rat),
      ((∃ e, a.deposit amount = .error e) ↔ amount ≤ 0) ∧
      (0 < amount →
        a.deposit amount = .ok { a with balance := a.balance + amount }) ∧
      (∀ e, a.deposit amount = .error e → a.step (.deposit amount) = a)) ∧
    (∀ (a : BankAccount) (amount : Rat),
      ((∃ e, a.withdraw amount = .error e) ↔ (amount ≤ 0 ∨ a.balance < amount)) ∧
      (0 < amount → amount ≤ a.balance →
        a.withdraw amount = .ok { a with balance := a.balance - amount }) ∧
      (∀ e, a.withdraw amount = .error e → a.step (.withdraw amount) = a)) ∧
    (∀ (a : BankAccount) (ops : List AccountOp),
      0 ≤ a.balance → 0 ≤ (a.runOps ops).balance) := by
  refine ⟨?_, ?_, ?_⟩
  · intro a amount
    refine ⟨⟨?_, ?_⟩, ?_, ?_⟩
    · rintro ⟨e, he⟩
      by_contra hpos
      rw [BankAccount.deposit, if_neg hpos] at he
      exact Except.noConfusion he
    · intro hle
      exact ⟨"El monto debe ser positivo", by rw [BankAccount.deposit, if_pos hle]⟩
    · intro hpos
      rw [BankAccount.deposit, if_neg (by linarith)]
    · intro e he
      rw [BankAccount.step, he]
  · intro a amount
    refine ⟨⟨?_, ?_⟩, ?_, ?_⟩
    · rintro ⟨e, he⟩
      by_contra hok
      push_neg at hok
      rw [BankAccount.withdraw, if_neg (by linarith [hok.1]),
        if_neg (by linarith [hok.2])] at he
      exact Except.noConfusion he
    · intro h
      rcases h with hle | hlt
      · exact ⟨"El monto debe ser positivo", by rw [BankAccount.withdraw, if_pos hle]⟩
      · by_cases hle : amount ≤ 0
        · exact ⟨"El monto debe ser positivo", by rw [BankAccount.withdraw, if_pos hle]⟩
        · exact ⟨"Fondos insuficientes",
            by rw [BankAccount.withdraw, if_neg hle, if_pos hlt]⟩
    · intro hpos hle
      rw [BankAccount.withdraw, if_neg (by linarith), if_neg (by linarith)]
    · intro e he
      rw [BankAccount.step, he]
  · intro a ops
    induction ops generalizing a with
    | nil => intro h; exact h
    | cons op rest ih =>
      intro h
      rw [BankAccount.runOps, List.foldl_cons]
      exact ih (a.step op) (BankAccount.step_nonneg a op h)

/-- Witness for C3 on the demo sequence (account "Juan" with balance 1000,
then `deposit(500)`, `withdraw(200)`): the final balance 1300 is non-negative,
and the error cases fire on `deposit(0)` and `withdraw(2000)`. -/
theorem bankAccount_correct_witness :
    (0 : Rat) ≤ ((BankAccount.mk "Juan" 1000).runOps
      [.deposit 500, .withdraw 200]).balance ∧
    (∃ e, (BankAccount.mk "Juan" 1000).deposit 0 = .error e) ∧
    (∃ e, (BankAccount.mk "Juan" 1000).withdraw 2000 = .error e) := by
  refine ⟨?_, ?_, ?_⟩
  · exact bankAccount_correct.2.2 (BankAccount.mk "Juan" 1000)
      [.deposit 500, .withdraw 200] (by norm_num)
  · exact ((bankAccount_correct.1 (BankAccount.mk "Juan" 1000) 0).1).mpr le_rfl
  · exact ((bankAccount_correct.2.1 (BankAccount.mk "Juan" 1000) 2000).1).mpr
      (Or.inr (by norm_num))

/-! ## `LibraryItem` (src/python_guide/object_oriented.py lines 496-521).
  Only `checked_out` matters for the claims; `check_out`/`return_item` raise
  `ValueError` or mutate the flag (the raise precedes any mutation; the error
  strings are modelled without the single quotes around the title). -/

structure LibraryItem where
  title : String
  item_id : String
  checked_out : Bool

/-- Embedding of `LibraryItem.check_out`:
```
if self.checked_out: raise ValueError(...)
self.checked_out = True
``` -/
def LibraryItem.check_out (self : LibraryItem) : Except String LibraryItem :=
  if self.checked_out then .error ("El ítem " ++ self.title ++ " ya está prestado")
  else .ok { self with checked_out := true }

/-- Embedding of `LibraryItem.return_item`:
```
if not self.checked_out: raise ValueError(...)
self.checked_out = False
``` -/
def LibraryItem.return_item (self : LibraryItem) : Except String LibraryItem :=
  if ¬ self.checked_out then .error ("El ítem " ++ self.title ++ " no está prestado")
  else .ok { self with checked_out := false }

/-- A call on a library item. -/
inductive LibOp where
  | check_out
  | return_item

/-- Dispatch one call. -/
def LibraryItem.applyOp (self : LibraryItem) : LibOp → Except String LibraryItem
  | .check_out => self.check_out
  | .return_item => self.return_item

/-- One call where a raising call leaves the item exactly as it was. -/
def LibraryItem.step (self : LibraryItem) (op : LibOp) : LibraryItem :=
  match self.applyOp op with
  | .ok s => s
  | .error _ => self

/-- Run a sequence of calls, `none` as soon as one raises: the successful
sequences are exactly those accepted here. -/
def LibraryItem.runAll (self : LibraryItem) : List LibOp → Option LibraryItem
  | [] => some self
  | op :: ops =>
    match self.applyOp op with
    | .ok s => s.runAll ops
    | .error _ => none

/-- The unique all-successful call sequence of a given length from a given
flag state: it strictly alternates, starting with `check_out` iff the item is
not checked out. -/
def expectedOps : Bool → Nat → List LibOp
  | _, 0 => []
  | false, k + 1 => .check_out :: expectedOps true k
  | true, k + 1 => .return_item :: expectedOps false k

theorem libraryItem_runAll_iff (ops : List LibOp) :
    ∀ item : LibraryItem,
    ((item.runAll ops).isSome = true ↔ ops = expectedOps item.checked_out ops.length) := by
  induction ops with
  | nil => intro item; simp [LibraryItem.runAll, expectedOps]
  | cons op rest ih =>
    intro item
    rw [LibraryItem.runAll]
    cases op with
    | check_out =>
      cases hb : item.checked_out with
      | false =>
        rw [LibraryItem.applyOp, LibraryItem.check_out, if_neg (by rw [hb]; exact Bool.false_ne_true)]
        simp only [List.length_cons, hb, expectedOps, List.cons.injEq, true_and]
        exact ih { item with checked_out := true }
      | true =>
        rw [LibraryItem.applyOp, LibraryItem.check_out, if_pos hb]
        simp [hb, expectedOps]
    | return_item =>
      cases hb : item.checked_out with
      | true =>
        rw [LibraryItem.applyOp, LibraryItem.return_item, if_neg (by rw [hb]; simp)]
        simp only [List.length_cons, hb, expectedOps, List.cons.injEq, true_and]
        exact ih { item with checked_out := false }
      | false =>
        rw [LibraryItem.applyOp, LibraryItem.return_item, if_pos (by rw [hb]; exact Bool.false_ne_true)]
        simp [hb, expectedOps]

/-- C10: `check_out` raises iff the item is already checked out and otherwise
sets the flag; `return_item` raises iff it is not checked out and otherwise
clears the flag; a raising call leaves the flag unchanged; the all-successful
call sequences from any state are exactly the strictly alternating ones, and
in particular two consecutive `check_out` calls always raise. -/
theorem libraryItem_correct :
    (∀ item : LibraryItem,
      ((∃ e, item.check_out = .error e) ↔ item.checked_out = true) ∧
      (item.checked_out = false →
        item.check_out = .ok { item with checked_out := true }) ∧
      ((∃ e, item.return_item = .error e) ↔ item.checked_out = false) ∧
      (item.checked_out = true →
        item.return_item = .ok { item with checked_out := false }) ∧
      (∀ op : LibOp, ∀ e, item.applyOp op = .error e →
        (item.step op).checked_out = item.checked_out)) ∧
    (∀ (item : LibraryItem) (ops : List LibOp),
      (item.runAll ops).isSome = true ↔ ops = expectedOps item.checked_out ops.length) ∧
    (∀ (item : LibraryItem) (pre post : List LibOp),
      item.runAll (pre ++ .check_out :: .check_out :: post) = none) := by
  refine ⟨?_, fun item ops => libraryItem_runAll_iff ops item, ?_⟩
  · intro item
    refine ⟨⟨?_, ?_⟩, ?_, ⟨?_, ?_⟩, ?_, ?_⟩
    · rintro ⟨e, he⟩
      by_contra hb
      rw [LibraryItem.check_out, if_neg (by simpa using hb)] at he
      exact Except.noConfusion he
    · intro hb
      exact ⟨_, by rw [LibraryItem.check_out, if_pos hb]⟩
    · intro hb
      rw [LibraryItem.check_out, if_neg (by rw [hb]; exact Bool.false_ne_true)]
    · rintro ⟨e, he⟩
      by_contra hb
      rw [LibraryItem.return_item,
        if_neg (by simp only [Bool.not_eq_false] at hb; rw [hb]; simp)] at he
      exact Except.noConfusion he
    · intro hb
      exact ⟨_, by rw [LibraryItem.return_item, if_pos (by rw [hb]; exact Bool.false_ne_true)]⟩
    · intro hb
      rw [LibraryItem.return_item, if_neg (by rw [hb]; simp)]
    · intro op e he
      rw [LibraryItem.step, he]
  · intro item pre post
    induction pre generalizing item with
    | nil =>
      cases hb : item.checked_out with
      | true =>
        simp [LibraryItem.runAll, LibraryItem.applyOp, LibraryItem.check_out, hb]
      | false =>
        simp [LibraryItem.runAll, LibraryItem.applyOp, LibraryItem.check_out, hb]
    | cons p pre ih =>
      rw [List.cons_append, LibraryItem.runAll]
      cases hres : item.applyOp p with
      | ok s => exact ih s
      | error e => rfl

/-- Witness for C10 on the demo item "El Quijote" (id "B001", initially not
checked out): `check_out` then `return_item` succeeds, two consecutive
`check_out` calls fail. -/
theorem libraryItem_correct_witness :
    (((LibraryItem.mk "El Quijote" "B001" false).runAll
      [.check_out, .return_item]).isSome = true) ∧
    (LibraryItem.mk "El Quijote" "B001" false).runAll [.check_out, .check_out] = none := by
  constructor
  · exact (libraryItem_correct.2.1 (LibraryItem.mk "El Quijote" "B001" false)
      [.check_out, .return_item]).mpr rfl
  · simpa using libraryItem_correct.2.2 (LibraryItem.mk "El Quijote" "B001" false) [] []

/-! ## `memoize` and `fibonacci` (src/python_guide/decorators.py lines 228-257).
  The wrapper keys a dict on `str(args) + str(kwargs)`; for the decorated
  `fibonacci` every call passes one positional int, on which that key is
  injective, so the cache is modelled as an association list keyed by the
  argument itself. The recursive calls in the body go through the wrapper. -/

/-- The memoize cache: insertion-ordered key/value pairs. -/
abbrev FibCache := List (Nat × Nat)

/-- Dict lookup: the stored value for `key`, if any. -/
def lookupCache (key : Nat) : FibCache → Option Nat
  | [] => none
  | (k, v) :: rest => if k = key then some v else lookupCache key rest

mutual

/-- The `memoize` wrapper around `fibonacci`:
```
key = str(args) + str(kwargs)
if key not in cache: cache[key] = func(*args, **kwargs)
return cache[key]
```
Returns the value together with the cache after the call. -/
def fibonacciMemo (n : Nat) (cache : FibCache) : Nat × FibCache :=
  match lookupCache n cache with
  | some v => (v, cache)
  | none =>
    let r := fibonacciBody n cache
    (r.1, (n, r.1) :: r.2)
termination_by (2 * n + 1, 0)

/-- The body of the decorated `fibonacci`:
```
if n <= 1: return n
return fibonacci(n - 1) + fibonacci(n - 2)
```
where the recursive `fibonacci` calls hit the wrapper. -/
def fibonacciBody (n : Nat) (cache : FibCache) : Nat × FibCache :=
  if n ≤ 1 then (n, cache)
  else
    let a := fibonacciMemo (n - 1) cache
    let b := fibonacciMemo (n - 2) a.2
    (a.1 + b.1, b.2)
termination_by (2 * n, 0)

end

/-- The plain recursive reference definition from the claim:
`fib 0 = 0`, `fib 1 = 1`, `fib n = fib (n-1) + fib (n-2)`. -/
def fibRef : Nat → Nat
  | 0 => 0
  | 1 => 1
  | n + 2 => fibRef (n + 1) + fibRef n

theorem fibRef_rec (n : Nat) (h : 2 ≤ n) :
    fibRef n = fibRef (n - 1) + fibRef (n - 2) := by
  obtain ⟨m, rfl⟩ : ∃ m, n = m + 2 := ⟨n - 2, by omega⟩
  simp [fibRef]

/-- Every entry of the cache stores the Fibonacci number of its key. -/
def CacheOK (c : FibCache) : Prop := ∀ p ∈ c, p.2 = fibRef p.1

theorem lookupCache_ok : ∀ (c : FibCache), CacheOK c →
    ∀ n v, lookupCache n c = some v → v = fibRef n := by
  intro c
  induction c with
  | nil => intro _ n v h; exact Option.noConfusion h
  | cons p rest ih =>
    intro hc n v h
    obtain ⟨k, w⟩ := p
    rw [lookupCache] at h
    by_cases hk : k = n
    · rw [if_pos hk] at h
      have hv : w = v := Option.some.inj h
      have hw : w = fibRef k := hc (k, w) (List.mem_cons_self _ _)
      rw [← hv, hw, hk]
    · rw [if_neg hk] at h
      exact ih (fun q hq => hc q (List.mem_cons_of_mem _ hq)) n v h

theorem fib_memo_and_body_ok (n : Nat) :
    (∀ c, CacheOK c →
      (fibonacciBody n c).1 = fibRef n ∧ CacheOK (fibonacciBody n c).2) ∧
    (∀ c, CacheOK c →
      (fibonacciMemo n c).1 = fibRef n ∧ CacheOK (fibonacciMemo n c).2) := by
  induction n using Nat.strong_induction_on with
  | _ n ih =>
    have hbody : ∀ c, CacheOK c →
        (fibonacciBody n c).1 = fibRef n ∧ CacheOK (fibonacciBody n c).2 := by
      intro c hc
      rw [fibonacciBody]
      by_cases h1 : n ≤ 1
      · rw [if_pos h1]
        refine ⟨?_, hc⟩
        interval_cases n <;> rfl
      · rw [if_neg h1]
        obtain ⟨ha1, ha2⟩ := (ih (n - 1) (by omega)).2 c hc
        obtain ⟨hb1, hb2⟩ := (ih (n - 2) (by omega)).2 _ ha2
        refine ⟨?_, hb2⟩
        simp only
        rw [ha1, hb1, fibRef_rec n (by omega)]
    refine ⟨hbody, ?_⟩
    intro c hc
    rw [fibonacciMemo]
    cases hlook : lookupCache n c with
    | some v =>
      simp only [hlook]
      exact ⟨lookupCache_ok c hc n v hlook, hc⟩
    | none =>
      simp only [hlook]
      obtain ⟨h1, h2⟩ := hbody c hc
      refine ⟨h1, ?_⟩
      intro p hp
      rcases List.mem_cons.mp hp with h | hp2
      · rw [h]; simpa using h1
      · exact h2 p hp2

/-- C2: on every cache whose entries are correct (in particular the empty
cache the decorator starts with), the memoize-decorated `fibonacci` returns
exactly the value of the plain recursive reference `fibRef`, and leaves the
cache correct: memoization changes only whether the body runs, never the
value returned. -/
theorem fibonacci_memo_eq_fib (n : Nat) (c : FibCache) (hc : CacheOK c) :
    (fibonacciMemo n c).1 = fibRef n ∧ CacheOK (fibonacciMemo n c).2 :=
  (fib_memo_and_body_ok n).2 c hc

/-- Witness for C2: the decorated call `fibonacci(10)` from the empty cache
returns `fibRef 10 = 55`. -/
theorem fibonacci_memo_eq_fib_witness :
    CacheOK [] ∧ (fibonacciMemo 10 []).1 = fibRef 10 ∧ fibRef 10 = 55 :=
  ⟨by intro p hp; exact absurd hp (List.not_mem_nil p),
   (fibonacci_memo_eq_fib 10 [] (by intro p hp; exact absurd hp (List.not_mem_nil p))).1,
   rfl⟩

/-! ## Claim C4: state across calls.
  The memoize cache (decorators.py lines 237-248) is a closure-captured dict
  that outlives each call of the decorated `fibonacci`; the lemmas below show
  a call stores its result there and a later call reads it back. -/

/-- After any call, the argument's result is stored in the returned cache. -/
theorem lookupCache_after_call (n : Nat) (c : FibCache) :
    lookupCache n (fibonacciMemo n c).2 = some (fibonacciMemo n c).1 := by
  rw [fibonacciMemo]
  cases hlook : lookupCache n c with
  | some v => simpa using hlook
  | none => simp [lookupCache]

/-- A repeated call with the same argument reads the stored entry: it returns
the same value and leaves the cache exactly as it was. -/
theorem fibonacciMemo_repeat (n : Nat) (c : FibCache) :
    fibonacciMemo n (fibonacciMemo n c).2 =
      ((fibonacciMemo n c).1, (fibonacciMemo n c).2) := by
  conv_lhs => rw [fibonacciMemo]
  rw [lookupCache_after_call]

/-- C4 counterexample: the claim predicts that no call's result is stored in
a cache for reuse by a later call; but after the single call `fibonacci(2)`
from the decorator's initial empty cache, the cache holds the entry `2 ↦ 1`. -/
theorem c4_counterexample : lookupCache 2 (fibonacciMemo 2 []).2 = some 1 := by
  rw [lookupCache_after_call,
    ((fib_memo_and_body_ok 2).2 [] (fun p hp => absurd hp (List.not_mem_nil p))).1]
  rfl

/-- C4 amended: the memoize cache does persist state across calls: every call
stores its result under its argument's key, and a later call with the same
argument reuses the stored entry, returning the same (still correct) value
while leaving the cache unchanged. -/
theorem c4_memo_state_persists (n : Nat) (c : FibCache) (hc : CacheOK c) :
    lookupCache n (fibonacciMemo n c).2 = some (fibRef n) ∧
    fibonacciMemo n (fibonacciMemo n c).2 =
      ((fibonacciMemo n c).1, (fibonacciMemo n c).2) := by
  constructor
  · rw [lookupCache_after_call, ((fib_memo_and_body_ok n).2 c hc).1]
  · exact fibonacciMemo_repeat n c

/-- Witness for the amended C4 at the call `fibonacci(2)` on the empty cache. -/
theorem c4_memo_state_persists_witness :
    lookupCache 2 (fibonacciMemo 2 []).2 = some (fibRef 2) ∧
    fibonacciMemo 2 (fibonacciMemo 2 []).2 =
      ((fibonacciMemo 2 []).1, (fibonacciMemo 2 []).2) :=
  c4_memo_state_persists 2 [] (fun p hp => absurd hp (List.not_mem_nil p))

/-! ## Claim C5: file effects of the demonstration functions.
  The only file operations in any demonstration function are in
  `exception_handling` (exception_handling.py lines 48-66: write then remove
  "archivo_temporal.txt"; lines 166-212: the TempFile context manager writes
  then removes "archivo_temp.txt"). The file system is modelled by the states
  of these two paths. -/

structure DemoFS where
  archivo_temporal : Option String
  archivo_temp : Option String
deriving DecidableEq

/-- Effect of the statement
`with open("archivo_temporal.txt", "w") as f: f.write("Contenido de prueba")`. -/
def writeArchivoTemporal (fs : DemoFS) : DemoFS :=
  { fs with archivo_temporal := some "Contenido de prueba" }

/-- Effect of `os.remove(file_path)` in the `finally` block
(`FileNotFoundError` is passed over, so removal always succeeds or is a no-op). -/
def removeArchivoTemporal (fs : DemoFS) : DemoFS :=
  { fs with archivo_temporal := none }

/-- Effect of the `TempFile("archivo_temp.txt")` body write
`f.write("Este es un archivo temporal")`. -/
def writeArchivoTemp (fs : DemoFS) : DemoFS :=
  { fs with archivo_temp := some "Este es un archivo temporal" }

/-- Effect of the removal in `TempFile.__exit__` (OSError passed over). -/
def removeArchivoTemp (fs : DemoFS) : DemoFS :=
  { fs with archivo_temp := none }

/-- The successive file-system states during one call of `exception_handling`
(initial, after the write at line 50, after the remove at line 63, after the
TempFile write at line 208, after the TempFile removal at line 198). -/
def exceptionHandlingTrace (fs : DemoFS) : List DemoFS :=
  [fs,
   writeArchivoTemporal fs,
   removeArchivoTemporal (writeArchivoTemporal fs),
   writeArchivoTemp (removeArchivoTemporal (writeArchivoTemporal fs)),
   removeArchivoTemp (writeArchivoTemp (removeArchivoTemporal (writeArchivoTemporal fs)))]

/-- The net file-system effect of one call of `exception_handling`. -/
def exception_handling_files (fs : DemoFS) : DemoFS :=
  removeArchivoTemp (writeArchivoTemp (removeArchivoTemporal (writeArchivoTemporal fs)))

/-- C5 counterexample: starting from a file system in which neither file
exists, the call of `exception_handling` does create a file: right after the
write at exception_handling.py line 50 the file "archivo_temporal.txt" exists
with content "Contenido de prueba", so not every state in the call's trace
equals the initial state. -/
theorem c5_counterexample :
    ¬ (∀ s ∈ exceptionHandlingTrace (DemoFS.mk none none), s = DemoFS.mk none none) := by
  intro h
  have hw := h (writeArchivoTemporal (DemoFS.mk none none))
    (by simp [exceptionHandlingTrace])
  have : (writeArchivoTemporal (DemoFS.mk none none)).archivo_temporal = none :=
    congrArg DemoFS.archivo_temporal hw
  simp [writeArchivoTemporal] at this

/-- C5 amended: `exception_handling` does create (and later delete) its two
temporary files during the call, but removes both before returning: for every
starting file system its net effect leaves both paths absent - in particular,
starting from a file system without them, no file persists after the call. -/
theorem c5_exception_handling_files (fs : DemoFS) :
    exception_handling_files fs = DemoFS.mk none none ∧
    (writeArchivoTemporal fs).archivo_temporal = some "Contenido de prueba" ∧
    (writeArchivoTemp fs).archivo_temp = some "Este es un archivo temporal" :=
  ⟨rfl, rfl, rfl⟩

/-! ## Claim C7: the concurrency module's tasks
  (src/python_guide/concurrency.py lines 39-78 and 94-113). -/

/-- Embedding of `io_bound_task` (lines 39-55): sleeps `delay` seconds and
returns `(task_id, execution_time)`, where `execution_time` is the measured
wall-clock duration - an oracle input `times` of the model, one value per
task. -/
def io_bound_task (times : Nat → Rat) (task_id : Nat) (delay : Rat) : Nat × Rat :=
  (task_id, times task_id)

/-- The local computation of `cpu_bound_task` (lines 57-78):
`result = 0; for i in range(iterations): result += i * i`. The function's
return value is `(task_id, execution_time)`, not this sum. -/
def cpu_bound_result (iterations : Nat) : Nat :=
  (List.range iterations).foldl (fun acc i => acc + i * i) 0

/-- Sequential execution (lines 84-86): results in task order. -/
def sequentialResults (times : Nat → Rat) (ids : List Nat) (delay : Rat) :
    List (Nat × Rat) :=
  ids.map (fun i => io_bound_task times i delay)

/-- Threaded execution (`threaded_io_tasks`, lines 94-107): the same tasks,
results appended in thread completion order - an arbitrary permutation
`order` of the task ids. -/
def threadedResults (times : Nat → Rat) (order : List Nat) (delay : Rat) :
    List (Nat × Rat) :=
  order.map (fun i => io_bound_task times i delay)

/-- C7 counterexample: the multiset of task results is not
scheduling-independent, because the `execution_time` component is a measured
wall-clock duration: a sequential run measuring 1 second per task and a
threaded run measuring 2 seconds for task 0 (and 1 second for the others)
yield different result multisets for the same fixed task set `{0, 1, 2}`. -/
theorem c7_counterexample :
    (threadedResults (fun i => if i = 0 then 2 else 1) [2, 0, 1] (1/2) :
      Multiset (Nat × Rat)) ≠
    (sequentialResults (fun _ => 1) [0, 1, 2] (1/2) : Multiset (Nat × Rat)) := by
  intro h
  have hp := Multiset.coe_eq_coe.mp h
  have hmem : ((0, 2) : Nat × Rat) ∈
      threadedResults (fun i => if i = 0 then 2 else 1) [2, 0, 1] (1/2) := by
    simp [threadedResults, io_bound_task]
  have hmem2 := hp.mem_iff.mp hmem
  simp [sequentialResults, io_bound_task, Prod.ext_iff] at hmem2

/-- C7 amended: the task functions are pure in everything except the measured
time: whenever the per-task measured durations agree, any completion order
(sequential, threads, processes, asyncio) yields the same multiset of
`(task_id, execution_time)` results; in particular the multiset of task ids is
always scheduling-independent; and `cpu_bound_task` internally computes
`Σ_{i < iterations} i²`, which it discards in favour of the measured time. -/
theorem c7_tasks_scheduling_independent :
    (∀ (times : Nat → Rat) (delay : Rat) (ids order : List Nat), order.Perm ids →
      (threadedResults times order delay : Multiset (Nat × Rat)) =
        (sequentialResults times ids delay : Multiset (Nat × Rat))) ∧
    (∀ iterations : Nat,
      cpu_bound_result iterations = ∑ i in Finset.range iterations, i * i) := by
  constructor
  · intro times delay ids order hperm
    exact Multiset.coe_eq_coe.mpr (hperm.map _)
  · intro iterations
    induction iterations with
    | zero => rfl
    | succ k ih =>
      rw [cpu_bound_result, List.range_succ, List.foldl_append,
        Finset.sum_range_succ, ← ih]
      rfl

/-- Witness for the amended C7: the demo's three tasks, completion order
`[2, 0, 1]`, all measured at 1 second. -/
theorem c7_tasks_scheduling_independent_witness :
    ([2, 0, 1] : List Nat).Perm [0, 1, 2] ∧
    (threadedResults (fun _ => 1) [2, 0, 1] (1/2) : Multiset (Nat × Rat)) =
      (sequentialResults (fun _ => 1) [0, 1, 2] (1/2) : Multiset (Nat × Rat)) :=
  ⟨by decide,
   c7_tasks_scheduling_independent.1 (fun _ => 1) (1/2) [0, 1, 2] [2, 0, 1] (by decide)⟩

/-! ## Claim C6: determinism of the printed output.
  `timing_decorator` (decorators.py lines 201-217) prints
  `f"Función {func.__name__} tomó {end_time - start_time:.6f} segundos"`,
  where `end_time - start_time` is a measured wall-clock duration. The
  duration is modelled as a whole number of microseconds (exactly the
  quantity `%.6f` renders), an oracle input of the run; a printed line is a
  `List Char`. -/

/-- The character of a decimal digit. -/
def digitToChar (d : Nat) : Char := Char.ofNat (48 + d)

theorem digitToChar_inj : ∀ d1, d1 < 10 → ∀ d2, d2 < 10 →
    digitToChar d1 = digitToChar d2 → d1 = d2 := by decide

/-- Decimal digits of `n`, most significant first ("0" for 0): how Python
prints a non-negative int. -/
def natDigitsBE (n : Nat) : List Char :=
  if n = 0 then ['0'] else ((Nat.digits 10 n).map digitToChar).reverse

/-- The six digits printed after the decimal point for a duration whose
fractional part is `frac` microseconds, most significant first. -/
def fracSixDigits (frac : Nat) : List Char :=
  [digitToChar (frac / 100000 % 10), digitToChar (frac / 10000 % 10),
   digitToChar (frac / 1000 % 10), digitToChar (frac / 100 % 10),
   digitToChar (frac / 10 % 10), digitToChar (frac % 10)]

/-- The `"%.6f"` rendering of a duration of `micros` microseconds. -/
def formatSixF (micros : Nat) : List Char :=
  natDigitsBE (micros / 1000000) ++ '.' :: fracSixDigits (micros % 1000000)

/-- The full line `timing_decorator` prints, as a function of the decorated
function's name and of the measured duration. -/
def timingLine (name : List Char) (micros : Nat) : List Char :=
  "Función ".data ++ name ++ " tomó ".data ++ formatSixF micros ++ " segundos".data

theorem map_digitToChar_inj :
    ∀ (l1 l2 : List Nat), (∀ x ∈ l1, x < 10) → (∀ x ∈ l2, x < 10) →
    l1.map digitToChar = l2.map digitToChar → l1 = l2 := by
  intro l1
  induction l1 with
  | nil =>
    intro l2 _ _ h
    cases l2 with
    | nil => rfl
    | cons b bs => exact List.noConfusion h
  | cons a as ih =>
    intro l2 h1 h2 h
    cases l2 with
    | nil => exact List.noConfusion h
    | cons b bs =>
      rw [List.map_cons, List.map_cons] at h
      obtain ⟨hab, htail⟩ := List.cons.inj h
      rw [digitToChar_inj a (h1 a (List.mem_cons_self _ _))
            b (h2 b (List.mem_cons_self _ _)) hab,
        ih bs (fun x hx => h1 x (List.mem_cons_of_mem _ hx))
          (fun x hx => h2 x (List.mem_cons_of_mem _ hx)) htail]

theorem natDigitsBE_inj : ∀ m n : Nat, natDigitsBE m = natDigitsBE n → m = n := by
  have hzero : ∀ n : Nat, n ≠ 0 → natDigitsBE n ≠ ['0'] := by
    intro n hn h
    rw [natDigitsBE, if_neg hn] at h
    have hmap : (Nat.digits 10 n).map digitToChar = ['0'] := by
      have := congrArg List.reverse h
      rwa [List.reverse_reverse] at this
    cases hd : Nat.digits 10 n with
    | nil => rw [hd] at hmap; exact List.noConfusion hmap
    | cons d ds =>
      rw [hd, List.map_cons] at hmap
      obtain ⟨hd0, hds⟩ := List.cons.inj hmap
      have hds0 : ds = [] := List.map_eq_nil_iff.mp hds
      have hdlt : d < 10 := Nat.digits_lt_base (by norm_num) (hd ▸ List.mem_cons_self d ds)
      have hd00 : d = 0 := digitToChar_inj d hdlt 0 (by norm_num) hd0
      have hofd := Nat.ofDigits_digits 10 n
      rw [hd, hds0, hd00] at hofd
      simp [Nat.ofDigits] at hofd
      exact hn (by omega)
  have h0 : natDigitsBE 0 = ['0'] := by simp [natDigitsBE]
  intro m n h
  by_cases hm : m = 0
  · by_cases hn : n = 0
    · rw [hm, hn]
    · subst hm
      rw [h0] at h
      exact absurd h.symm (hzero n hn)
  · by_cases hn : n = 0
    · subst hn
      rw [h0] at h
      exact absurd h (hzero m hm)
    · rw [natDigitsBE, if_neg hm, natDigitsBE, if_neg hn] at h
      have hmap := List.reverse_injective h
      have hdig := map_digitToChar_inj _ _
        (fun x hx => Nat.digits_lt_base (by norm_num) hx)
        (fun x hx => Nat.digits_lt_base (by norm_num) hx) hmap
      have := congrArg (Nat.ofDigits 10) hdig
      rwa [Nat.ofDigits_digits, Nat.ofDigits_digits] at this

theorem fracSixDigits_inj : ∀ f1, f1 < 1000000 → ∀ f2, f2 < 1000000 →
    fracSixDigits f1 = fracSixDigits f2 → f1 = f2 := by
  intro f1 h1 f2 h2 h
  rw [fracSixDigits, fracSixDigits] at h
  simp only [List.cons.injEq, and_true] at h
  obtain ⟨e1, e2, e3, e4, e5, e6⟩ := h
  have d1 := digitToChar_inj _ (Nat.mod_lt _ (by norm_num)) _ (Nat.mod_lt _ (by norm_num)) e1
  have d2 := digitToChar_inj _ (Nat.mod_lt _ (by norm_num)) _ (Nat.mod_lt _ (by norm_num)) e2
  have d3 := digitToChar_inj _ (Nat.mod_lt _ (by norm_num)) _ (Nat.mod_lt _ (by norm_num)) e3
  have d4 := digitToChar_inj _ (Nat.mod_lt _ (by norm_num)) _ (Nat.mod_lt _ (by norm_num)) e4
  have d5 := digitToChar_inj _ (Nat.mod_lt _ (by norm_num)) _ (Nat.mod_lt _ (by norm_num)) e5
  have d6 := digitToChar_inj _ (Nat.mod_lt _ (by norm_num)) _ (Nat.mod_lt _ (by norm_num)) e6
  omega

theorem formatSixF_inj : ∀ m1 m2 : Nat, formatSixF m1 = formatSixF m2 → m1 = m2 := by
  intro m1 m2 h
  rw [formatSixF, formatSixF] at h
  have hlen : ('.' :: fracSixDigits (m1 % 1000000)).length =
      ('.' :: fracSixDigits (m2 % 1000000)).length := rfl
  obtain ⟨hint, htail⟩ := List.append_inj' h hlen
  obtain ⟨-, hfrac⟩ := List.cons.inj htail
  have hq := natDigitsBE_inj _ _ hint
  have hr := fracSixDigits_inj _ (Nat.mod_lt _ (by norm_num)) _
    (Nat.mod_lt _ (by norm_num)) hfrac
  omega

theorem timingLine_inj (name : List Char) :
    ∀ m1 m2 : Nat, timingLine name m1 = timingLine name m2 → m1 = m2 := by
  intro m1 m2 h
  rw [timingLine, timingLine] at h
  exact formatSixF_inj m1 m2 (List.append_cancel_left (List.append_cancel_right h))

/-- C6 counterexample: the printed output is not a run-independent fixed
document: two runs of the decorated `slow_function` whose measured wall-clock
durations are 500000 and 500001 microseconds print different timing lines. -/
theorem c6_counterexample :
    timingLine ("slow_function").data 500000 ≠ timingLine ("slow_function").data 500001 :=
  fun h => by
    have := timingLine_inj ("slow_function").data 500000 500001 h
    omega

/-- C6 amended: each demonstration's printed output is a deterministic
function of its environment inputs (the measured wall-clock durations and the
interpreter version), not a fixed document: two runs print the same
timing-decorator line for a function iff they measure the same whole number
of microseconds. -/
theorem c6_timing_output_iff (name : List Char) (m1 m2 : Nat) :
    timingLine name m1 = timingLine name m2 ↔ m1 = m2 :=
  ⟨timingLine_inj name m1 m2, fun h => by rw [h]⟩
